import Mathlib

/-!
Verification of the MJ18 divisibility-proof scheme and its polynomial
engine (`src/our_scheme/test/charm_auth_test.py`).

The scalar field `ZR` of the pairing group (prime order `q`) is modelled as
`ZMod q`.  Every `G1` element handled by the scheme is produced from the
sampled base point `g`, so a group element is represented by its discrete
logarithm to base `g` (an element of `ZMod q`): `g` itself is `gBase = 1`,
group exponentiation `x ** a` becomes multiplication of the exponent by
`a`, group multiplication becomes addition of exponents, and the bilinear
pairing `pair(g^a, g^b) = e(g,g)^(a*b)` is represented by the product
`a * b` of the exponents.  This representation is faithful whenever the
sampled `g` is a generator of the prime-order group (all cases except
`g = identity`), since then both discrete-logarithm maps are injective and
group / target-group equality coincides with exponent equality.

Randomness (`group.random(ZR)`, the sampled `s`, `alpha`, the single
target coefficient and the blinding scalar `delta`) is passed in as
explicit parameters.  Python runtime failures are modelled with
`Except PyErr`.
-/

/-- The failure modes of the Python code (and the spec's error kinds). -/
inductive PyErr where
  /-- Python `IndexError` (list index out of range). -/
  | indexOutOfRange
  /-- The `ValueError("Denominator polynomial cannot be zero")` raised at
  the top of `polynomial_division`; this is the spec's `InvalidDivisor`. -/
  | invalidDivisor
  /-- Division of a scalar by the zero scalar (`remainder[i] / t[0]` with
  `t[0] == 0`). -/
  | divisionByZero
  /-- The spec's `DegreeExceeded` error kind.  Present so that claims
  naming it can be stated; the code never raises it. -/
  | degreeExceeded
deriving DecidableEq

/-- Multiplicative inverse in the scalar field, computed as the Fermat
power `b ^ (q - 2)` so that it evaluates by kernel reduction; for prime
`q` and `b ≠ 0` this is the unique field inverse (see `finv_mul_self`). -/
def finv {q : Nat} (b : ZMod q) : ZMod q := b ^ (q - 2)

/-- Scalar-field division `a / b` as used by `remainder[i] / t[0]`;
division by the zero scalar is a failure. -/
def fdiv {q : Nat} (a b : ZMod q) : Except PyErr (ZMod q) :=
  if b = 0 then .error .divisionByZero else .ok (a * finv b)

/-- `while remainder and remainder[-1] == zero: remainder.pop()` -/
def trimTrailingZeros {q : Nat} (l : List (ZMod q)) : List (ZMod q) :=
  (l.reverse.dropWhile (fun c => c == 0)).reverse

/-- The inner update of the long-division loop:
`for j in range(len(t)): remainder[i + j] -= coef * t[j]`. -/
def applyStep {q : Nat} (t : List (ZMod q)) (i : Nat) (coef : ZMod q)
    (rem : List (ZMod q)) : List (ZMod q) :=
  (List.range t.length).foldl
    (fun r j => r.set (i + j) (r.getD (i + j) 0 - coef * t.getD j 0)) rem

/-- One iteration of the long-division loop body at index `i`:
skip when `remainder[i] == zero`, otherwise `coef = remainder[i] / t[0]`,
`quotient[i] = coef`, and subtract `coef * t` shifted by `i`. -/
def divStep {q : Nat} (t : List (ZMod q)) (i : Nat)
    (quot rem : List (ZMod q)) : Except PyErr (List (ZMod q) × List (ZMod q)) :=
  if rem.getD i 0 = 0 then .ok (quot, rem)
  else
    match fdiv (rem.getD i 0) (t.getD 0 0) with
    | .error e => .error e
    | .ok coef => .ok (quot.set i coef, applyStep t i coef rem)

/-- `for i in range(len(p) - len(t) + 1)` of `polynomial_division`,
written with an explicit remaining-iteration count `fuel` (called with
`fuel = len(p) - len(t) + 1` and `i = 0`). -/
def divLoop {q : Nat} (t : List (ZMod q)) :
    Nat → Nat → List (ZMod q) → List (ZMod q) →
      Except PyErr (List (ZMod q) × List (ZMod q))
  | 0, _, quot, rem => .ok (quot, rem)
  | fuel + 1, i, quot, rem =>
    match divStep t i quot rem with
    | .error e => .error e
    | .ok (quot2, rem2) => divLoop t fuel (i + 1) quot2 rem2

/-- `polynomial_division(p, t, group)`: guard against an empty or
identically-zero divisor, run the long-division loop on
`quotient = [zero] * (len(p) - len(t) + 1)` and `remainder = p.copy()`,
then trim trailing zeros of the remainder.  (In Python the quotient
length `len(p) - len(t) + 1` clamps at `0` because `range` of a
non-positive bound is empty; `Nat` subtraction clamps identically.) -/
def polynomial_division {q : Nat} (p t : List (ZMod q)) :
    Except PyErr (List (ZMod q) × List (ZMod q)) :=
  if t.length == 0 || t.all (fun c => c == 0) then .error .invalidDivisor
  else
    match divLoop t (p.length + 1 - t.length) 0
        (List.replicate (p.length + 1 - t.length) 0) p with
    | .error e => .error e
    | .ok (quot, rem) => .ok (quot, trimTrailingZeros rem)

/-- `polynomial_multiply(a, b, group)`: result of length
`len(a) + len(b) - 2 + 1` (clamped at `0`), accumulated by
`result[i + j] += a[i] * b[j]` over the nested loops. -/
def polynomial_multiply {q : Nat} (a b : List (ZMod q)) : List (ZMod q) :=
  (List.range a.length).foldl
    (fun acc i =>
      (List.range b.length).foldl
        (fun acc2 j =>
          acc2.set (i + j) (acc2.getD (i + j) 0 + a.getD i 0 * b.getD j 0))
        acc)
    (List.replicate (a.length + b.length - 1) 0)

/-- `n` iterations of `acc *= srs[i] ** coeffs[i]` (indices advancing
together), in the exponent: `acc + srs[i] * coeffs[i]`; a Python
`IndexError` when either list runs out before the iterations do. -/
def commitN {q : Nat} :
    Nat → List (ZMod q) → List (ZMod q) → ZMod q → Except PyErr (ZMod q)
  | 0, _, _, acc => .ok acc
  | n + 1, e :: es, c :: cs, acc => commitN n es cs (acc + e * c)
  | _ + 1, _, _, _ => .error .indexOutOfRange

/-- `sum(coeffs[i] * (x ** i) for i in range(len(coeffs)))`. -/
def polyEvalAt {q : Nat} (coeffs : List (ZMod q)) (x : ZMod q) : ZMod q :=
  ∑ i in Finset.range coeffs.length, coeffs.getD i 0 * x ^ i

/-- The discrete logarithm of the base point `g` to base `g`. -/
def gBase {q : Nat} : ZMod q := 1

/-- `pair(g^a, g^b) = e(g, g)^(a * b)`, represented by the exponent. -/
def pairE {q : Nat} (a b : ZMod q) : ZMod q := a * b

/-- The fields the `MJ18` object holds after `setup` has run: the degree
bound `self.d` and — crucially — the trapdoor scalars `self.s`,
`self.alpha` and the target coefficients `self.t_coeffs` (the base point
`self.g` is the implicit dlog base of the embedding). -/
structure MJ18State (q : Nat) where
  d : Nat
  s : ZMod q
  alpha : ZMod q
  t_coeffs : List (ZMod q)

/-- `MJ18.setup`: given the sampled randomness `s`, `alpha` and the single
random target coefficient `tc` (the code builds `self.t_coeffs` with
exactly one `group.random(ZR)` element), produce the post-`setup` object
state, `PK = (g_s_i, g_alpha_s_i)` and `VK = (g_alpha, gt_s)`. -/
def MJ18.setup {q : Nat} (d : Nat) (s alpha tc : ZMod q) :
    MJ18State q × (List (ZMod q) × List (ZMod q)) × (ZMod q × ZMod q) :=
  let g_alpha := alpha
  let g_s_i := (List.range (d + 1)).map (fun i => s ^ i)
  let g_alpha_s_i := (List.range (d + 1)).map (fun i => alpha * s ^ i)
  let t_coeffs := [tc]
  let t_s := polyEvalAt t_coeffs s
  let gt_s := t_s
  (⟨d, s, alpha, t_coeffs⟩, (g_s_i, g_alpha_s_i), (g_alpha, gt_s))

/-- `MJ18.prove(PK, VC)` with the blinding scalar `delta` passed in:
computes `g^p(s)` directly from the retained secret `self.s` (line 50 of
the source), divides `p` by `self.t_coeffs`, commits the quotient and the
(unused) remainder over `g_s_i`, commits `p` over `g_alpha_s_i` with the
loop `for i in range(self.d + 1)`, and blinds the three emitted elements
by `delta`. -/
def MJ18.prove {q : Nat} (st : MJ18State q)
    (PK : List (ZMod q) × List (ZMod q)) (VC : List (ZMod q))
    (delta : ZMod q) : Except PyErr (ZMod q × ZMod q × ZMod q) := do
  let (g_s_i, g_alpha_s_i) := PK
  let p_coeffs := VC
  let p_s := polyEvalAt p_coeffs st.s
  let gp_s := p_s
  let (h_coeffs, r_coeffs) ← polynomial_division p_coeffs st.t_coeffs
  let gh_s ← commitN h_coeffs.length g_s_i h_coeffs 0
  let _gr_s ← commitN r_coeffs.length g_s_i r_coeffs 0
  let g_alpha_p_s ← commitN (st.d + 1) g_alpha_s_i p_coeffs 0
  return (gp_s * delta, gh_s * delta, g_alpha_p_s * delta)

/-- `MJ18.verify(VK, pi)`: the two pairing checks
`pair_1 == pair_2 and pair_3 == pair_4`. -/
def MJ18.verify {q : Nat} (VK : ZMod q × ZMod q)
    (piv : ZMod q × ZMod q × ZMod q) : Bool :=
  let (g_delta_p_s, g_delta_h_s, g_delta_alpha_p_s) := piv
  let (g_alpha, g_t_s) := VK
  let pair_1 := pairE g_delta_alpha_p_s gBase
  let pair_2 := pairE g_delta_p_s g_alpha
  let pair_3 := pairE g_delta_p_s gBase
  let pair_4 := pairE g_delta_h_s g_t_s
  let is_valid_restriction := pair_1 == pair_2
  let is_valid_cofactor := pair_3 == pair_4
  is_valid_restriction && is_valid_cofactor

deriving instance DecidableEq for Except

/-- Coefficient `k` of the product of two coefficient lists,
`Σ_{i ≤ k} a_i * b_{k-i}` (out-of-range entries read as `0`). -/
def convCoeff {q : Nat} (a b : List (ZMod q)) (k : Nat) : ZMod q :=
  ∑ i in Finset.range (k + 1), a.getD i 0 * b.getD (k - i) 0

/-! ### List helper lemmas -/

theorem getD_set_self {q : Nat} (l : List (ZMod q)) (i : Nat) (v : ZMod q)
    (h : i < l.length) : (l.set i v).getD i 0 = v := by
  simp [List.getD_eq_getElem?_getD, List.getElem?_set_self, h]

theorem getD_set_ne {q : Nat} (l : List (ZMod q)) (i j : Nat) (v : ZMod q)
    (h : i ≠ j) : (l.set i v).getD j 0 = l.getD j 0 := by
  simp [List.getD_eq_getElem?_getD, List.getElem?_set_ne h]

theorem getD_of_length_le {q : Nat} (l : List (ZMod q)) (k : Nat)
    (h : l.length ≤ k) : l.getD k 0 = 0 := by
  simp [List.getD_eq_getElem?_getD, List.getElem?_eq_none h]

theorem getD_replicate_zero {q : Nat} (n k : Nat) :
    (List.replicate n (0 : ZMod q)).getD k 0 = 0 := by
  rcases Nat.lt_or_ge k n with h | h
  · simp [List.getD_eq_getElem?_getD, List.getElem?_replicate, h]
  · exact getD_of_length_le _ _ (by simpa using h)

theorem getD_append_add {q : Nat} (l1 l2 : List (ZMod q)) (k : Nat) :
    (l1 ++ l2).getD (l1.length + k) 0 = l2.getD k 0 := by
  simp [List.getD_eq_getElem?_getD, List.getElem?_append_right]

theorem set_append_add {q : Nat} (l1 l2 : List (ZMod q)) (k : Nat) (v : ZMod q) :
    (l1 ++ l2).set (l1.length + k) v = l1 ++ l2.set k v := by
  simp [List.set_append]

theorem getD_append_zero_snoc {q : Nat} :
    ∀ (xs : List (ZMod q)) (k : Nat), (xs ++ [(0 : ZMod q)]).getD k 0 = xs.getD k 0
  | [], 0 => rfl
  | [], k + 1 => by simp [List.getD]
  | x :: xs, 0 => rfl
  | x :: xs, k + 1 => by simpa using getD_append_zero_snoc xs k

theorem foldl_length_invariant {q : Nat} {β : Type}
    (g : List (ZMod q) → β → List (ZMod q))
    (h : ∀ r x, (g r x).length = r.length) :
    ∀ (L : List β) (acc : List (ZMod q)), (L.foldl g acc).length = acc.length
  | [], _ => rfl
  | x :: L, acc => by
    rw [List.foldl_cons, foldl_length_invariant g h L (g acc x), h]

theorem getD_map_range {q : Nat} (m i : Nat) (f : Nat → ZMod q) (h : i < m) :
    ((List.range m).map f).getD i 0 = f i := by
  simp [List.getD_eq_getElem?_getD, List.getElem?_map, List.getElem?_range h]

/-- `finv` really is the field inverse for prime `q`. -/
theorem finv_mul_self {q : Nat} [Fact q.Prime] (b : ZMod q) (hb : b ≠ 0) :
    finv b * b = 1 := by
  have hq : 2 ≤ q := (Fact.out (p := q.Prime)).two_le
  have h1 : b ^ (q - 2) * b = b ^ (q - 1) := by
    rw [← pow_succ]
    congr 1
    omega
  rw [finv, h1, ZMod.pow_card_sub_one_eq_one hb]

/-! ### Commitment-fold lemmas -/

theorem commitN_ok {q : Nat} :
    ∀ (n : Nat) (srs coeffs : List (ZMod q)) (acc : ZMod q),
      n ≤ srs.length → n ≤ coeffs.length →
      commitN n srs coeffs acc =
        .ok (acc + ∑ i in Finset.range n, srs.getD i 0 * coeffs.getD i 0) := by
  intro n
  induction n with
  | zero => intro srs coeffs acc _ _; simp [commitN]
  | succ n ih =>
    intro srs coeffs acc h1 h2
    cases srs with
    | nil => simp at h1
    | cons e es =>
      cases coeffs with
      | nil => simp at h2
      | cons c cs =>
        rw [show commitN (n + 1) (e :: es) (c :: cs) acc
            = commitN n es cs (acc + e * c) from rfl]
        rw [ih es cs (acc + e * c) (by simpa using h1) (by simpa using h2)]
        congr 1
        rw [Finset.sum_range_succ' (fun i => (e :: es).getD i 0 * (c :: cs).getD i 0) n]
        simp only [List.getD_cons_succ, List.getD_cons_zero]
        ring

theorem commitN_err {q : Nat} :
    ∀ (n : Nat) (srs coeffs : List (ZMod q)) (acc : ZMod q),
      srs.length < n ∨ coeffs.length < n →
      commitN n srs coeffs acc = .error .indexOutOfRange := by
  intro n
  induction n with
  | zero =>
    intro srs coeffs acc h
    rcases h with h | h <;> exact absurd h (Nat.not_lt_zero _)
  | succ n ih =>
    intro srs coeffs acc h
    cases srs with
    | nil => rfl
    | cons e es =>
      cases coeffs with
      | nil => rfl
      | cons c cs =>
        rw [show commitN (n + 1) (e :: es) (c :: cs) acc
            = commitN n es cs (acc + e * c) from rfl]
        apply ih
        rcases h with h | h
        · left
          simp only [List.length_cons] at h
          omega
        · right
          simp only [List.length_cons] at h
          omega

/-! ### Trimming lemmas -/

theorem trim_replicate_zero {q : Nat} (n : Nat) :
    trimTrailingZeros (List.replicate n (0 : ZMod q)) = [] := by
  unfold trimTrailingZeros
  rw [List.reverse_replicate]
  have h : (List.replicate n (0 : ZMod q)).dropWhile (fun c => c == 0) = [] := by
    induction n with
    | zero => rfl
    | succ n ih => rw [List.replicate_succ]; simp [List.dropWhile_cons, ih]
  rw [h]
  rfl

theorem trim_getD {q : Nat} (l : List (ZMod q)) (k : Nat) :
    (trimTrailingZeros l).getD k 0 = l.getD k 0 := by
  induction l using List.reverseRecOn with
  | nil => rfl
  | append_singleton xs x ih =>
    by_cases hx : x = 0
    · subst hx
      have h1 : trimTrailingZeros (xs ++ [(0 : ZMod q)]) = trimTrailingZeros xs := by
        unfold trimTrailingZeros
        simp [List.dropWhile_cons]
      rw [h1, ih, getD_append_zero_snoc]
    · have h1 : trimTrailingZeros (xs ++ [x]) = xs ++ [x] := by
        unfold trimTrailingZeros
        simp [List.dropWhile_cons, hx]
      rw [h1]

/-! ### Division-loop lemmas -/

theorem fdiv_error_eq {q : Nat} (a b : ZMod q) (e : PyErr)
    (h : fdiv a b = .error e) : e = .divisionByZero := by
  unfold fdiv at h
  by_cases hb : b = 0
  · rw [if_pos hb] at h
    exact (Except.error.inj h).symm
  · rw [if_neg hb] at h
    exact Except.noConfusion h

theorem divStep_error_eq {q : Nat} (t : List (ZMod q)) (i : Nat)
    (quot rem : List (ZMod q)) (e : PyErr)
    (h : divStep t i quot rem = .error e) : e = .divisionByZero := by
  unfold divStep at h
  split at h
  · exact Except.noConfusion h
  · split at h
    · rename_i e2 heq
      have h1 : e2 = e := Except.error.inj h
      rw [← h1]
      exact fdiv_error_eq _ _ _ heq
    · exact Except.noConfusion h

theorem divLoop_error_eq {q : Nat} (t : List (ZMod q)) :
    ∀ (fuel i : Nat) (quot rem : List (ZMod q)) (e : PyErr),
      divLoop t fuel i quot rem = .error e → e = .divisionByZero := by
  intro fuel
  induction fuel with
  | zero => intro i quot rem e h; exact Except.noConfusion h
  | succ fuel ih =>
    intro i quot rem e h
    rw [divLoop] at h
    split at h
    · rename_i e2 heq
      have h1 : e2 = e := Except.error.inj h
      rw [← h1]
      exact divStep_error_eq t i quot rem e2 heq
    · rename_i quot2 rem2 heq
      exact ih _ _ _ _ h

/-- If the scanned prefix of the (unchanged) remainder still holds a
non-zero entry and `t[0] == 0`, the loop hits a division by zero. -/
theorem divLoop_zero_head {q : Nat} (t : List (ZMod q))
    (ht0 : t.getD 0 0 = 0) :
    ∀ (fuel i : Nat) (quot rem : List (ZMod q)),
      (∃ j, i ≤ j ∧ j < i + fuel ∧ rem.getD j 0 ≠ 0) →
      divLoop t fuel i quot rem = .error .divisionByZero := by
  intro fuel
  induction fuel with
  | zero =>
    intro i quot rem h
    rcases h with ⟨j, hij, hj, _⟩
    omega
  | succ fuel ih =>
    intro i quot rem h
    rcases h with ⟨j, hij, hj, hnz⟩
    rw [divLoop]
    by_cases h0 : rem.getD i 0 = 0
    · have hstep : divStep t i quot rem = .ok (quot, rem) := by
        unfold divStep
        rw [if_pos h0]
      rw [hstep]
      apply ih
      refine ⟨j, ?_, by omega, hnz⟩
      rcases Nat.eq_or_lt_of_le hij with h1 | h1
      · exact absurd (h1 ▸ h0) hnz
      · omega
    · have hstep : divStep t i quot rem = .error .divisionByZero := by
        unfold divStep
        rw [if_neg h0]
        have hf : fdiv (rem.getD i 0) (t.getD 0 0) = .error .divisionByZero := by
          unfold fdiv
          rw [ht0, if_pos rfl]
        rw [hf]
      rw [hstep]

theorem getD_lt {q : Nat} (l : List (ZMod q)) (i : Nat) (h : i < l.length) :
    l.getD i 0 = l[i] := by
  simp [List.getD_eq_getElem?_getD, List.getElem?_eq_getElem h]

/-- With the degree-zero divisor `[tc]`, `tc ≠ 0`, each loop iteration
records `p[i] / tc` in the quotient and zeroes the scanned remainder
entry; starting from the `i`-th intermediate state it reaches the final
state `(map (fun c => c / tc) p, [0] * len(p))`. -/
theorem divLoop_single {q : Nat} (p : List (ZMod q)) (tc : ZMod q)
    (htc : tc ≠ 0) (hinv : finv tc * tc = 1) :
    ∀ (fuel i : Nat), i + fuel = p.length →
      divLoop [tc] fuel i
        ((p.take i).map (fun c => c * finv tc) ++ List.replicate fuel 0)
        (List.replicate i 0 ++ p.drop i) =
      .ok (p.map (fun c => c * finv tc), List.replicate p.length 0) := by
  intro fuel
  induction fuel with
  | zero =>
    intro i hi
    have hi2 : i = p.length := by omega
    subst hi2
    rw [divLoop]
    simp
  | succ fuel ih =>
    intro i hi
    have hip : i < p.length := by omega
    have hlen_take : ((p.take i).map (fun c => c * finv tc)).length = i := by
      simp [List.length_take, Nat.min_eq_left (Nat.le_of_lt hip)]
    have hgetD : (List.replicate i (0 : ZMod q) ++ p.drop i).getD i 0 = p[i] := by
      have h1 := getD_append_add (List.replicate i (0 : ZMod q)) (p.drop i) 0
      simp only [List.length_replicate, Nat.add_zero] at h1
      rw [h1, List.drop_eq_getElem_cons hip]
      rfl
    have htake : p.take (i + 1) = p.take i ++ [p[i]] := by
      rw [List.take_succ]
      simp [List.getElem?_eq_getElem hip]
    have hdrop : p.drop i = p[i] :: p.drop (i + 1) :=
      List.drop_eq_getElem_cons hip
    rw [divLoop]
    by_cases hp : p[i] = (0 : ZMod q)
    · have hstep : divStep [tc] i
          ((p.take i).map (fun c => c * finv tc) ++ List.replicate (fuel + 1) 0)
          (List.replicate i 0 ++ p.drop i) =
          .ok ((p.take i).map (fun c => c * finv tc) ++ List.replicate (fuel + 1) 0,
            List.replicate i 0 ++ p.drop i) := by
        unfold divStep
        rw [if_pos (by rw [hgetD]; exact hp)]
      rw [hstep]
      have hquot : (p.take i).map (fun c => c * finv tc) ++ List.replicate (fuel + 1) 0
          = (p.take (i + 1)).map (fun c => c * finv tc) ++ List.replicate fuel 0 := by
        rw [htake, List.map_append, List.replicate_succ]
        simp [hp]
      have hrem : List.replicate i (0 : ZMod q) ++ p.drop i
          = List.replicate (i + 1) 0 ++ p.drop (i + 1) := by
        rw [hdrop, hp, List.replicate_succ']
        simp
      rw [hquot, hrem]
      exact ih (i + 1) (by omega)
    · have hstep : divStep [tc] i
          ((p.take i).map (fun c => c * finv tc) ++ List.replicate (fuel + 1) 0)
          (List.replicate i 0 ++ p.drop i) =
          .ok (((p.take i).map (fun c => c * finv tc) ++
              List.replicate (fuel + 1) 0).set i (p[i] * finv tc),
            applyStep [tc] i (p[i] * finv tc)
              (List.replicate i 0 ++ p.drop i)) := by
        unfold divStep
        rw [if_neg (by rw [hgetD]; exact hp)]
        rw [hgetD]
        have hf : fdiv p[i] (([tc] : List (ZMod q)).getD 0 0)
            = .ok (p[i] * finv tc) := by
          unfold fdiv
          rw [show ([tc] : List (ZMod q)).getD 0 0 = tc from rfl, if_neg htc]
        rw [hf]
      rw [hstep]
      have hquot : ((p.take i).map (fun c => c * finv tc) ++
          List.replicate (fuel + 1) 0).set i (p[i] * finv tc)
          = (p.take (i + 1)).map (fun c => c * finv tc) ++ List.replicate fuel 0 := by
        have h2 : ((p.take i).map (fun c => c * finv tc) ++
            List.replicate (fuel + 1) 0).set i (p[i] * finv tc)
            = ((p.take i).map (fun c => c * finv tc) ++
              List.replicate (fuel + 1) 0).set
                (((p.take i).map (fun c => c * finv tc)).length + 0) (p[i] * finv tc) := by
          simp [hlen_take]
          congr 1
          omega
        rw [h2, set_append_add, htake, List.map_append, List.replicate_succ]
        simp
      have hrem : applyStep [tc] i (p[i] * finv tc)
          (List.replicate i 0 ++ p.drop i)
          = List.replicate (i + 1) (0 : ZMod q) ++ p.drop (i + 1) := by
        unfold applyStep
        rw [show List.range (List.length ([tc] : List (ZMod q))) = [0] from rfl]
        rw [List.foldl_cons, List.foldl_nil, Nat.add_zero, hgetD]
        rw [show ([tc] : List (ZMod q)).getD 0 0 = tc from rfl]
        have hval : p[i] - p[i] * finv tc * tc = 0 := by
          rw [mul_assoc, hinv, mul_one, sub_self]
        rw [hval]
        have h2 : (List.replicate i (0 : ZMod q) ++ p.drop i).set i 0
            = (List.replicate i (0 : ZMod q) ++ p.drop i).set
              ((List.replicate i (0 : ZMod q)).length + 0) 0 := by
          rw [List.length_replicate, Nat.add_zero]
        rw [h2, set_append_add, hdrop]
        rw [show (p[i] :: p.drop (i + 1)).set 0 0 = 0 :: p.drop (i + 1) from rfl]
        rw [List.replicate_succ']
        simp
      rw [hquot, hrem]
      exact ih (i + 1) (by omega)

/-- `polynomial_division p [tc]` with `tc ≠ 0` succeeds with quotient
`map (fun c => c / tc) p` and empty remainder. -/
theorem polynomial_division_single {q : Nat} (p : List (ZMod q)) (tc : ZMod q)
    (htc : tc ≠ 0) (hinv : finv tc * tc = 1) :
    polynomial_division p [tc] = .ok (p.map (fun c => c * finv tc), []) := by
  unfold polynomial_division
  have hguard : ((([tc] : List (ZMod q)).length == 0)
      || ([tc] : List (ZMod q)).all (fun c => c == 0)) = false := by
    simp [htc]
  rw [hguard]
  simp only [Bool.false_eq_true, if_false]
  rw [show p.length + 1 - List.length ([tc] : List (ZMod q)) = p.length from by simp]
  have hloop := divLoop_single p tc htc hinv p.length 0 (by omega)
  simp only [List.take_zero, List.map_nil, List.nil_append, List.replicate_zero,
    List.drop_zero] at hloop
  rw [hloop]
  show Except.ok (p.map (fun c => c * finv tc),
      trimTrailingZeros (List.replicate p.length 0)) = _
  rw [trim_replicate_zero]

/-! ### Prover evaluation lemmas -/

theorem bind_ok_eq {ε α β : Type} (a : α) (f : α → Except ε β) :
    (Except.ok a >>= f) = f a := rfl

theorem bind_error_eq {ε α β : Type} (e : ε) (f : α → Except ε β) :
    ((Except.error e : Except ε α) >>= f) = Except.error e := rfl

theorem getD_map_lt {q : Nat} (f : ZMod q → ZMod q) (l : List (ZMod q))
    (i : Nat) (h : i < l.length) : (l.map f).getD i 0 = f (l.getD i 0) := by
  simp [List.getD_eq_getElem?_getD, List.getElem?_map, List.getElem?_eq_getElem h]

theorem polyEvalAt_single {q : Nat} (tc s : ZMod q) : polyEvalAt [tc] s = tc := by
  simp [polyEvalAt]

theorem setup_state_eq {q : Nat} (d : Nat) (s alpha tc : ZMod q) :
    (MJ18.setup d s alpha tc).1 = ⟨d, s, alpha, [tc]⟩ := rfl

theorem setup_PK_eq {q : Nat} (d : Nat) (s alpha tc : ZMod q) :
    (MJ18.setup d s alpha tc).2.1 =
      ((List.range (d + 1)).map (fun i => s ^ i),
        (List.range (d + 1)).map (fun i => alpha * s ^ i)) := rfl

theorem setup_VK_eq {q : Nat} (d : Nat) (s alpha tc : ZMod q) :
    (MJ18.setup d s alpha tc).2.2 = (alpha, tc) := by
  show (alpha, polyEvalAt [tc] s) = (alpha, tc)
  rw [polyEvalAt_single]

/-- What the prover outputs on inputs of exactly the supported length
`d + 1` (with the target coefficient non-zero). -/
theorem prove_eq_of_exact_length {q : Nat} (d : Nat) (s alpha tc delta : ZMod q)
    (p : List (ZMod q)) (htc : tc ≠ 0) (hinv : finv tc * tc = 1)
    (hlen : p.length = d + 1) :
    MJ18.prove (⟨d, s, alpha, [tc]⟩ : MJ18State q)
      ((List.range (d + 1)).map (fun i => s ^ i),
        (List.range (d + 1)).map (fun i => alpha * s ^ i)) p delta =
      .ok (polyEvalAt p s * delta,
        (∑ i in Finset.range (d + 1), s ^ i * (p.getD i 0 * finv tc)) * delta,
        (∑ i in Finset.range (d + 1), alpha * s ^ i * p.getD i 0) * delta) := by
  simp only [MJ18.prove]
  rw [polynomial_division_single p tc htc hinv, bind_ok_eq]
  have hgh : commitN (p.map (fun c => c * finv tc)).length
      ((List.range (d + 1)).map (fun i => s ^ i)) (p.map (fun c => c * finv tc)) 0
      = .ok (∑ i in Finset.range (d + 1), s ^ i * (p.getD i 0 * finv tc)) := by
    rw [commitN_ok _ _ _ _ (by simp [hlen]) (by simp)]
    rw [zero_add, List.length_map, hlen]
    congr 1
    apply Finset.sum_congr rfl
    intro i hi
    have hi2 : i < d + 1 := Finset.mem_range.mp hi
    rw [getD_map_range _ _ _ hi2, getD_map_lt _ _ _ (by omega)]
  rw [hgh, bind_ok_eq]
  rw [show commitN (List.length ([] : List (ZMod q)))
      ((List.range (d + 1)).map (fun i => s ^ i)) [] 0 = .ok 0 from rfl, bind_ok_eq]
  have hga : commitN (d + 1)
      ((List.range (d + 1)).map (fun i => alpha * s ^ i)) p 0
      = .ok (∑ i in Finset.range (d + 1), alpha * s ^ i * p.getD i 0) := by
    rw [commitN_ok _ _ _ _ (by simp) (by simp [hlen])]
    rw [zero_add]
    congr 1
    apply Finset.sum_congr rfl
    intro i hi
    have hi2 : i < d + 1 := Finset.mem_range.mp hi
    rw [getD_map_range _ _ _ hi2]
  rw [hga, bind_ok_eq]
  rfl

/-- With fewer than `d + 1` coefficients the alpha-commitment loop
(`for i in range(self.d + 1)`) reads `p_coeffs[i]` out of range. -/
theorem prove_short_err {q : Nat} (d : Nat) (s alpha tc delta : ZMod q)
    (p : List (ZMod q)) (htc : tc ≠ 0) (hinv : finv tc * tc = 1)
    (hlt : p.length < d + 1) :
    MJ18.prove (MJ18.setup d s alpha tc).1 (MJ18.setup d s alpha tc).2.1 p delta
      = .error .indexOutOfRange := by
  rw [setup_state_eq, setup_PK_eq]
  simp only [MJ18.prove]
  rw [polynomial_division_single p tc htc hinv, bind_ok_eq]
  rw [commitN_ok _ _ _ _ (by simp only [List.length_map, List.length_range]; omega)
    (by simp), bind_ok_eq]
  rw [show commitN (List.length ([] : List (ZMod q)))
      ((List.range (d + 1)).map (fun i => s ^ i)) [] 0 = .ok 0 from rfl, bind_ok_eq]
  rw [commitN_err _ _ _ _ (Or.inr hlt)]
  rfl

/-- With more than `d + 1` coefficients the quotient-commitment loop reads
`g_s_i[i]` out of range (the quotient by the length-1 target has the same
length as `p`). -/
theorem prove_long_err {q : Nat} (d : Nat) (s alpha tc delta : ZMod q)
    (p : List (ZMod q)) (htc : tc ≠ 0) (hinv : finv tc * tc = 1)
    (hgt : d + 1 < p.length) :
    MJ18.prove (MJ18.setup d s alpha tc).1 (MJ18.setup d s alpha tc).2.1 p delta
      = .error .indexOutOfRange := by
  rw [setup_state_eq, setup_PK_eq]
  simp only [MJ18.prove]
  rw [polynomial_division_single p tc htc hinv, bind_ok_eq]
  rw [commitN_err _ _ _ _
    (Or.inl (by simp only [List.length_map, List.length_range]; omega))]
  rfl

/-! ### Claim theorems -/

/-- Claim C1 (Completeness): for every polynomial `p` of exactly `d + 1`
coefficients that is an exact multiple of the target `t = [tc]` (with `t`
non-zero), proving `p` under the PK produced by `setup` and verifying the
resulting proof under the matching VK returns `true`. -/
theorem completeness_of_exact_multiple {q : Nat} [Fact q.Prime] (d : Nat)
    (s alpha tc delta : ZMod q) (p : List (ZMod q))
    (hlen : p.length = d + 1) (htc : tc ≠ 0)
    (_hmul : ∃ h, p = polynomial_multiply h [tc]) :
    ∃ piv, MJ18.prove (MJ18.setup d s alpha tc).1 (MJ18.setup d s alpha tc).2.1
        p delta = .ok piv ∧
      MJ18.verify (MJ18.setup d s alpha tc).2.2 piv = true := by
  have hinv := finv_mul_self tc htc
  rw [setup_state_eq, setup_PK_eq, setup_VK_eq]
  rw [prove_eq_of_exact_length d s alpha tc delta p htc hinv hlen]
  refine ⟨_, rfl, ?_⟩
  have hA : (∑ i in Finset.range (d + 1), alpha * s ^ i * p.getD i 0)
      = alpha * polyEvalAt p s := by
    rw [polyEvalAt, hlen, Finset.mul_sum]
    apply Finset.sum_congr rfl
    intro i _
    ring
  have hH : (∑ i in Finset.range (d + 1), s ^ i * (p.getD i 0 * finv tc)) * tc
      = polyEvalAt p s := by
    rw [polyEvalAt, hlen, Finset.sum_mul]
    apply Finset.sum_congr rfl
    intro i _
    calc s ^ i * (p.getD i 0 * finv tc) * tc
        = p.getD i 0 * s ^ i * (finv tc * tc) := by ring
      _ = p.getD i 0 * s ^ i := by rw [hinv, mul_one]
  simp only [MJ18.verify, pairE, gBase, Bool.and_eq_true, beq_iff_eq]
  constructor
  · rw [mul_one, hA]
    ring
  · rw [mul_one, ← hH]
    ring

/-- Witness for C1: `q = 13`, `d = 1`, `s = 2`, `alpha = 3`, `t = [1]`,
`delta = 5`, `p = [1, 1] = multiply([1, 1], [1])`. -/
theorem completeness_of_exact_multiple_witness :
    ∃ piv, MJ18.prove (MJ18.setup (q := 13) 1 2 3 1).1
        (MJ18.setup (q := 13) 1 2 3 1).2.1 [1, 1] 5 = .ok piv ∧
      MJ18.verify (MJ18.setup (q := 13) 1 2 3 1).2.2 piv = true := by
  have h1 : (1 : ZMod 13) ≠ 0 := by decide
  have h2 : ([1, 1] : List (ZMod 13)) = polynomial_multiply [1, 1] [1] := by decide
  haveI : Fact (Nat.Prime 13) := ⟨by norm_num⟩
  exact completeness_of_exact_multiple 1 2 3 1 5 [1, 1] rfl h1 ⟨[1, 1], h2⟩

/-- Claim C3: the verifier returns `true` iff both the restriction check
`e(C, g) == e(A, g^alpha)` and the cofactor check `e(A, g) == e(B, g^t(s))`
hold on the proof `(A, B, C)`; it returns `false` in every other case. -/
theorem verify_iff_pairing_checks {q : Nat} (g_alpha g_t_s A B C : ZMod q) :
    MJ18.verify (g_alpha, g_t_s) (A, B, C) = true ↔
      (pairE C gBase = pairE A g_alpha ∧ pairE A gBase = pairE B g_t_s) := by
  simp [MJ18.verify, pairE, gBase]

/-- Claim C4 counterexample: at `d = 1` an input of length `3 > d + 1`
makes `prove` fail, but with a Python `IndexError`, not the spec's
`DegreeExceeded` error (no such error exists in the code). -/
theorem degree_bound_cex :
    MJ18.prove (MJ18.setup (q := 13) 1 2 3 1).1 (MJ18.setup (q := 13) 1 2 3 1).2.1
        [1, 2, 3] 5 ≠ .error .degreeExceeded := by
  decide

/-- Claim C4 (amended): for every `p_coeffs` with `len(p_coeffs) > d + 1`
(and a non-zero target coefficient), `prove` fails with an
index-out-of-range error rather than returning a proof. -/
theorem degree_bound_index_error {q : Nat} [Fact q.Prime] (d : Nat)
    (s alpha tc delta : ZMod q) (p : List (ZMod q))
    (htc : tc ≠ 0) (hlen : d + 1 < p.length) :
    MJ18.prove (MJ18.setup d s alpha tc).1 (MJ18.setup d s alpha tc).2.1 p delta
      = .error .indexOutOfRange :=
  prove_long_err d s alpha tc delta p htc (finv_mul_self tc htc) hlen

/-- Witness for C4 (amended) at `q = 13`, `d = 1`, `p = [1, 2, 3]`. -/
theorem degree_bound_index_error_witness :
    (1 : ZMod 13) ≠ 0 ∧ 1 + 1 < ([1, 2, 3] : List (ZMod 13)).length ∧
    MJ18.prove (MJ18.setup (q := 13) 1 2 3 1).1 (MJ18.setup (q := 13) 1 2 3 1).2.1
        [1, 2, 3] 5 = .error .indexOutOfRange := by
  have h1 : (1 : ZMod 13) ≠ 0 := by decide
  have h2 : 1 + 1 < ([1, 2, 3] : List (ZMod 13)).length := by decide
  haveI : Fact (Nat.Prime 13) := ⟨by norm_num⟩
  exact ⟨h1, h2, degree_bound_index_error 1 2 3 1 5 [1, 2, 3] h1 h2⟩

/-- Claim C5 (code bug): `setup` retains the trapdoor scalars `s` and
`alpha` in the object state reachable after it returns, and `prove`
computes `g^p(s)` from the retained `self.s`, not from the PK: two states
carrying the same PK but different `s` fields yield different proofs
(first components `2` vs `5`). -/
theorem trapdoor_retained_in_state :
    (∀ (q d : Nat) (s alpha tc : ZMod q),
      ((MJ18.setup d s alpha tc).1).s = s ∧
      ((MJ18.setup d s alpha tc).1).alpha = alpha) ∧
    MJ18.prove (⟨1, 2, 3, [1]⟩ : MJ18State 13)
      (MJ18.setup (q := 13) 1 2 3 1).2.1 [0, 1] 1 = .ok (2, 2, 6) ∧
    MJ18.prove (⟨1, 5, 3, [1]⟩ : MJ18State 13)
      (MJ18.setup (q := 13) 1 2 3 1).2.1 [0, 1] 1 = .ok (5, 2, 6) :=
  ⟨fun _ _ _ _ _ => ⟨rfl, rfl⟩, by decide, by decide⟩

/-- Claim C8: over `GF(13)`, dividing `p = (x−2)(x−3) = [6, −5, 1]`
(ascending coefficients) by `t = [−2, 1]` yields quotient `[−3, 1]`
(that is, `x − 3`) and an empty remainder. -/
theorem concrete_division_scenario :
    polynomial_division ([6, -5, 1] : List (ZMod 13)) [-2, 1] =
      .ok ([-3, 1], []) := by decide

/-- Claim C6: `polynomial_division` fails with the `InvalidDivisor` error
(`ValueError`) exactly when `t` is the empty list or every coefficient of
`t` is zero; in no other case does that error arise. -/
theorem invalidDivisor_iff_zero_divisor {q : Nat} (p t : List (ZMod q)) :
    polynomial_division p t = .error .invalidDivisor ↔
      (t = [] ∨ ∀ c ∈ t, c = 0) := by
  unfold polynomial_division
  by_cases hg : ((t.length == 0) || t.all (fun c => c == 0)) = true
  · rw [if_pos hg]
    simp only [Bool.or_eq_true, beq_iff_eq, List.length_eq_zero,
      List.all_eq_true] at hg
    exact iff_of_true rfl hg
  · rw [if_neg hg]
    have hng : ¬(t = [] ∨ ∀ c ∈ t, c = 0) := by
      simp only [Bool.or_eq_true, beq_iff_eq, List.length_eq_zero,
        List.all_eq_true] at hg
      exact hg
    refine iff_of_false ?_ hng
    cases hres : divLoop t (p.length + 1 - t.length) 0
        (List.replicate (p.length + 1 - t.length) 0) p with
    | error e =>
      simp only [hres]
      intro hcontra
      have he : e = .divisionByZero := divLoop_error_eq t _ _ _ _ e hres
      rw [he] at hcontra
      exact absurd (Except.error.inj hcontra) (by decide)
    | ok pr =>
      cases pr with
      | mk quot rem =>
        simp only [hres]
        intro hcontra
        exact Except.noConfusion hcontra

/-- Claim C9: with fewer than `d + 1` coefficients `prove` fails with an
index-out-of-range error (the alpha-commitment loop reads `p_coeffs[i]`
for every `i ≤ d`), and `prove` succeeds exactly when `p` has `d + 1`
coefficients. -/
theorem prove_requires_exact_length {q : Nat} [Fact q.Prime] (d : Nat)
    (s alpha tc delta : ZMod q) (p : List (ZMod q)) (htc : tc ≠ 0) :
    (p.length < d + 1 →
      MJ18.prove (MJ18.setup d s alpha tc).1 (MJ18.setup d s alpha tc).2.1 p delta
        = .error .indexOutOfRange) ∧
    ((∃ piv, MJ18.prove (MJ18.setup d s alpha tc).1 (MJ18.setup d s alpha tc).2.1
        p delta = .ok piv) ↔ p.length = d + 1) := by
  have hinv := finv_mul_self tc htc
  refine ⟨fun hlt => prove_short_err d s alpha tc delta p htc hinv hlt, ?_, ?_⟩
  · rintro ⟨piv, hok⟩
    rcases Nat.lt_trichotomy p.length (d + 1) with hlt | heq | hgt
    · rw [prove_short_err d s alpha tc delta p htc hinv hlt] at hok
      exact Except.noConfusion hok
    · exact heq
    · rw [prove_long_err d s alpha tc delta p htc hinv hgt] at hok
      exact Except.noConfusion hok
  · intro heq
    rw [setup_state_eq, setup_PK_eq]
    exact ⟨_, prove_eq_of_exact_length d s alpha tc delta p htc hinv heq⟩

/-- Witness for C9 at `q = 13`, `d = 1`: `p = [1]` is too short and fails
with `IndexError`; `prove` succeeds only at length `2`. -/
theorem prove_requires_exact_length_witness :
    (1 : ZMod 13) ≠ 0 ∧
    ((([1] : List (ZMod 13)).length < 1 + 1 →
      MJ18.prove (MJ18.setup (q := 13) 1 2 3 1).1 (MJ18.setup (q := 13) 1 2 3 1).2.1
        [1] 5 = .error .indexOutOfRange) ∧
    ((∃ piv, MJ18.prove (MJ18.setup (q := 13) 1 2 3 1).1
        (MJ18.setup (q := 13) 1 2 3 1).2.1 [1] 5 = .ok piv) ↔
      ([1] : List (ZMod 13)).length = 1 + 1)) := by
  have h1 : (1 : ZMod 13) ≠ 0 := by decide
  haveI : Fact (Nat.Prime 13) := ⟨by norm_num⟩
  exact ⟨h1, prove_requires_exact_length 1 2 3 1 5 [1] h1⟩

/-- Claim C10: when `t` is non-zero but its constant coefficient `t[0]`
is zero, and `p` has a non-zero coefficient among its first
`len(p) - len(t) + 1` entries, the long-division loop divides by zero
instead of returning a quotient/remainder pair. -/
theorem divide_zero_constant_divisor {q : Nat} (p t : List (ZMod q))
    (ht0 : t.getD 0 0 = 0) (htnz : ∃ c ∈ t, c ≠ 0)
    (hp : ∃ i, i < p.length + 1 - t.length ∧ p.getD i 0 ≠ 0) :
    polynomial_division p t = .error .divisionByZero := by
  unfold polynomial_division
  have hg : ((t.length == 0) || t.all (fun c => c == 0)) = false := by
    rcases htnz with ⟨c, hc, hcne⟩
    cases hb : ((t.length == 0) || t.all (fun c => c == 0)) with
    | false => rfl
    | true =>
      exfalso
      simp only [Bool.or_eq_true, beq_iff_eq, List.length_eq_zero,
        List.all_eq_true] at hb
      rcases hb with hb | hb
      · subst hb
        simp at hc
      · exact hcne (hb c hc)
  rw [hg]
  simp only [Bool.false_eq_true, if_false]
  rcases hp with ⟨i, hilt, hine⟩
  have hl := divLoop_zero_head t ht0 (p.length + 1 - t.length) 0
    (List.replicate (p.length + 1 - t.length) 0) p ⟨i, Nat.zero_le i, by omega, hine⟩
  simp only [hl]

/-- Witness for C10 at `q = 13`: `p = [5, 7, 1]`, `t = [0, 2]`. -/
theorem divide_zero_constant_divisor_witness :
    (([0, 2] : List (ZMod 13)).getD 0 0 = 0) ∧
    polynomial_division ([5, 7, 1] : List (ZMod 13)) [0, 2] =
      .error .divisionByZero := by
  have h0 : (([0, 2] : List (ZMod 13)).getD 0 0 = 0) := by decide
  have h1 : (2 : ZMod 13) ∈ ([0, 2] : List (ZMod 13)) ∧ (2 : ZMod 13) ≠ 0 := by
    constructor
    · decide
    · decide
  have h2 : 0 < ([5, 7, 1] : List (ZMod 13)).length + 1 -
      ([0, 2] : List (ZMod 13)).length ∧ ([5, 7, 1] : List (ZMod 13)).getD 0 0 ≠ 0 := by
    constructor
    · decide
    · decide
  exact ⟨h0, divide_zero_constant_divisor [5, 7, 1] [0, 2] h0 ⟨2, h1.1, h1.2⟩
    ⟨0, h2.1, h2.2⟩⟩

/-! ### Coefficient-level characterisation of the nested update folds -/

theorem foldl_set_add_getD {q : Nat} (i k : Nat) (w : Nat → ZMod q) :
    ∀ (m : Nat) (acc : List (ZMod q)), i + m ≤ acc.length →
      ((List.range m).foldl
          (fun r j => r.set (i + j) (r.getD (i + j) 0 + w j)) acc).getD k 0
        = acc.getD k 0 + (if i ≤ k ∧ k < i + m then w (k - i) else 0) := by
  intro m
  induction m with
  | zero =>
    intro acc _
    rw [List.range_zero, List.foldl_nil, if_neg (by omega), add_zero]
  | succ m ih =>
    intro acc hle
    rw [List.range_succ, List.foldl_append, List.foldl_cons, List.foldl_nil]
    have hmidlen : ((List.range m).foldl
        (fun r j => r.set (i + j) (r.getD (i + j) 0 + w j)) acc).length
        = acc.length :=
      foldl_length_invariant _ (fun r x => List.length_set r _ _) _ acc
    by_cases hk : k = i + m
    · subst hk
      rw [getD_set_self _ _ _ (by rw [hmidlen]; omega)]
      rw [ih acc (by omega)]
      rw [if_neg (by omega), add_zero, if_pos (by omega)]
      rw [show i + m - i = m from by omega]
    · rw [getD_set_ne _ _ _ _ (Ne.symm hk)]
      rw [ih acc (by omega)]
      by_cases hc : i ≤ k ∧ k < i + m
      · rw [if_pos hc, if_pos (by omega)]
      · rw [if_neg hc, if_neg (by omega)]

theorem foldl_set_sub_getD {q : Nat} (i k : Nat) (w : Nat → ZMod q) :
    ∀ (m : Nat) (acc : List (ZMod q)), i + m ≤ acc.length →
      ((List.range m).foldl
          (fun r j => r.set (i + j) (r.getD (i + j) 0 - w j)) acc).getD k 0
        = acc.getD k 0 - (if i ≤ k ∧ k < i + m then w (k - i) else 0) := by
  intro m
  induction m with
  | zero =>
    intro acc _
    rw [List.range_zero, List.foldl_nil, if_neg (by omega), sub_zero]
  | succ m ih =>
    intro acc hle
    rw [List.range_succ, List.foldl_append, List.foldl_cons, List.foldl_nil]
    have hmidlen : ((List.range m).foldl
        (fun r j => r.set (i + j) (r.getD (i + j) 0 - w j)) acc).length
        = acc.length :=
      foldl_length_invariant _ (fun r x => List.length_set r _ _) _ acc
    by_cases hk : k = i + m
    · subst hk
      rw [getD_set_self _ _ _ (by rw [hmidlen]; omega)]
      rw [ih acc (by omega)]
      rw [if_neg (by omega), sub_zero, if_pos (by omega)]
      rw [show i + m - i = m from by omega]
    · rw [getD_set_ne _ _ _ _ (Ne.symm hk)]
      rw [ih acc (by omega)]
      by_cases hc : i ≤ k ∧ k < i + m
      · rw [if_pos hc, if_pos (by omega)]
      · rw [if_neg hc, if_neg (by omega)]

theorem applyStep_length {q : Nat} (t : List (ZMod q)) (i : Nat)
    (coef : ZMod q) (rem : List (ZMod q)) :
    (applyStep t i coef rem).length = rem.length := by
  unfold applyStep
  exact foldl_length_invariant _ (fun r j => List.length_set r _ _) _ rem

theorem applyStep_getD {q : Nat} (t : List (ZMod q)) (i : Nat)
    (coef : ZMod q) (rem : List (ZMod q)) (hle : i + t.length ≤ rem.length)
    (k : Nat) :
    (applyStep t i coef rem).getD k 0
      = rem.getD k 0 -
        (if i ≤ k ∧ k < i + t.length then coef * t.getD (k - i) 0 else 0) := by
  unfold applyStep
  exact foldl_set_sub_getD i k (fun j => coef * t.getD j 0) t.length rem hle

theorem polynomial_multiply_length {q : Nat} (a b : List (ZMod q)) :
    (polynomial_multiply a b).length = a.length + b.length - 1 := by
  unfold polynomial_multiply
  rw [foldl_length_invariant _
    (fun r x => foldl_length_invariant _ (fun r2 j => List.length_set r2 _ _) _ r) _ _]
  exact List.length_replicate _ _

theorem mul_outer_getD {q : Nat} (a b : List (ZMod q)) (k : Nat) :
    ∀ (n : Nat), n ≤ a.length → ∀ (acc : List (ZMod q)),
      acc.length = a.length + b.length - 1 →
      ((List.range n).foldl
          (fun acc2 i => (List.range b.length).foldl
            (fun acc3 j =>
              acc3.set (i + j) (acc3.getD (i + j) 0 + a.getD i 0 * b.getD j 0))
            acc2) acc).getD k 0
        = acc.getD k 0 + ∑ i in Finset.range n,
            (if i ≤ k ∧ k < i + b.length then a.getD i 0 * b.getD (k - i) 0 else 0) := by
  intro n
  induction n with
  | zero => intro _ acc _; simp
  | succ n ih =>
    intro hn acc hacc
    rw [List.range_succ, List.foldl_append, List.foldl_cons, List.foldl_nil]
    set mid := (List.range n).foldl
        (fun acc2 i => (List.range b.length).foldl
          (fun acc3 j =>
            acc3.set (i + j) (acc3.getD (i + j) 0 + a.getD i 0 * b.getD j 0))
          acc2) acc with hmiddef
    have hmidlen : mid.length = acc.length := by
      rw [hmiddef]
      exact foldl_length_invariant _
        (fun r x => foldl_length_invariant _ (fun r2 j => List.length_set r2 _ _) _ r)
        _ acc
    rw [foldl_set_add_getD n k (fun j => a.getD n 0 * b.getD j 0) b.length mid
      (by rw [hmidlen, hacc]; omega)]
    rw [hmiddef, ih (by omega) acc hacc]
    rw [Finset.sum_range_succ]
    ring

theorem polynomial_multiply_getD {q : Nat} (a b : List (ZMod q)) (k : Nat) :
    (polynomial_multiply a b).getD k 0 = convCoeff a b k := by
  unfold polynomial_multiply
  rw [mul_outer_getD a b k a.length (le_refl _) _ (List.length_replicate _ _)]
  rw [getD_replicate_zero, zero_add]
  unfold convCoeff
  have hM1 : ∑ i in Finset.range a.length,
      (if i ≤ k ∧ k < i + b.length then a.getD i 0 * b.getD (k - i) 0 else 0)
      = ∑ i in Finset.range (max a.length (k + 1)),
        (if i ≤ k ∧ k < i + b.length then a.getD i 0 * b.getD (k - i) 0 else 0) := by
    apply Finset.sum_subset (Finset.range_subset.mpr (le_max_left _ _))
    intro x _ hxn
    have hxa : a.length ≤ x := by
      simp only [Finset.mem_range, not_lt] at hxn
      exact hxn
    rw [getD_of_length_le a x hxa]
    by_cases hc : x ≤ k ∧ k < x + b.length
    · rw [if_pos hc, zero_mul]
    · rw [if_neg hc]
  have hM2 : ∑ i in Finset.range (k + 1), a.getD i 0 * b.getD (k - i) 0
      = ∑ i in Finset.range (k + 1),
        (if i ≤ k ∧ k < i + b.length then a.getD i 0 * b.getD (k - i) 0 else 0) := by
    apply Finset.sum_congr rfl
    intro x hx
    have hxk : x ≤ k := by
      simp only [Finset.mem_range] at hx
      omega
    by_cases hb2 : k < x + b.length
    · rw [if_pos ⟨hxk, hb2⟩]
    · rw [if_neg (fun hh => hb2 hh.2)]
      rw [getD_of_length_le b (k - x) (by omega), mul_zero]
  have hM3 : ∑ i in Finset.range (k + 1),
      (if i ≤ k ∧ k < i + b.length then a.getD i 0 * b.getD (k - i) 0 else 0)
      = ∑ i in Finset.range (max a.length (k + 1)),
        (if i ≤ k ∧ k < i + b.length then a.getD i 0 * b.getD (k - i) 0 else 0) := by
    apply Finset.sum_subset (Finset.range_subset.mpr (le_max_right _ _))
    intro x _ hxn
    have hxk : k + 1 ≤ x := by
      simp only [Finset.mem_range, not_lt] at hxn
      exact hxn
    rw [if_neg (by omega)]
  rw [hM1, hM2, hM3]

/-- Updating `a[i]` (previously `0`) adds the corresponding shifted-`t`
contribution to each product coefficient. -/
theorem convCoeff_set {q : Nat} (a t : List (ZMod q)) (i k : Nat) (v : ZMod q)
    (hi : i < a.length) (ha : a.getD i 0 = 0) :
    convCoeff (a.set i v) t k
      = convCoeff a t k + (if i ≤ k then v * t.getD (k - i) 0 else 0) := by
  unfold convCoeff
  by_cases hik : i ≤ k
  · rw [if_pos hik]
    have hmem : i ∈ Finset.range (k + 1) := Finset.mem_range.mpr (by omega)
    have e1 : ∑ x in Finset.range (k + 1), (a.set i v).getD x 0 * t.getD (k - x) 0
        = (∑ x in (Finset.range (k + 1)).erase i, a.getD x 0 * t.getD (k - x) 0)
          + v * t.getD (k - i) 0 := by
      rw [← Finset.sum_erase_add _ _ hmem]
      congr 1
      · apply Finset.sum_congr rfl
        intro x hx
        rw [getD_set_ne _ _ _ _ (Ne.symm (Finset.ne_of_mem_erase hx))]
      · rw [getD_set_self _ _ _ hi]
    have e2 : ∑ x in Finset.range (k + 1), a.getD x 0 * t.getD (k - x) 0
        = ∑ x in (Finset.range (k + 1)).erase i, a.getD x 0 * t.getD (k - x) 0 := by
      rw [← Finset.sum_erase_add _ _ hmem, ha, zero_mul, add_zero]
    rw [e1, e2]
  · rw [if_neg hik, add_zero]
    apply Finset.sum_congr rfl
    intro x hx
    have hxk : x < k + 1 := Finset.mem_range.mp hx
    rw [getD_set_ne _ _ _ _ (by omega)]

/-- The long-division loop keeps the exactness invariant
`quotient * t + remainder == p` (coefficient-wise) and, with `t[0] ≠ 0`,
never fails. -/
theorem divLoop_exact {q : Nat} (p t : List (ZMod q)) (ht0 : t.getD 0 0 ≠ 0) :
    ∀ (fuel i : Nat) (quot rem : List (ZMod q)),
      i + fuel = p.length + 1 - t.length →
      rem.length = p.length →
      quot.length = p.length + 1 - t.length →
      (∀ j, i ≤ j → quot.getD j 0 = 0) →
      (∀ k, convCoeff quot t k + rem.getD k 0 = p.getD k 0) →
      ∃ qF rF, divLoop t fuel i quot rem = .ok (qF, rF) ∧
        (∀ k, convCoeff qF t k + rF.getD k 0 = p.getD k 0) := by
  intro fuel
  induction fuel with
  | zero =>
    intro i quot rem _ _ _ _ hD
    exact ⟨quot, rem, by rw [divLoop], hD⟩
  | succ fuel ih =>
    intro i quot rem hn hrl hql hC hD
    have hin : i < p.length + 1 - t.length := by omega
    have ht1 : 1 ≤ t.length := by
      cases t with
      | nil => exact absurd rfl ht0
      | cons c cs => simp
    rw [divLoop]
    by_cases h0 : rem.getD i 0 = 0
    · have hstep : divStep t i quot rem = .ok (quot, rem) := by
        unfold divStep
        rw [if_pos h0]
      simp only [hstep]
      exact ih (i + 1) quot rem (by omega) hrl hql (fun j hj => hC j (by omega)) hD
    · have hstep : divStep t i quot rem
          = .ok (quot.set i (rem.getD i 0 * finv (t.getD 0 0)),
              applyStep t i (rem.getD i 0 * finv (t.getD 0 0)) rem) := by
        unfold divStep
        rw [if_neg h0]
        have hf : fdiv (rem.getD i 0) (t.getD 0 0)
            = .ok (rem.getD i 0 * finv (t.getD 0 0)) := by
          unfold fdiv
          rw [if_neg ht0]
        rw [hf]
      simp only [hstep]
      have htl : i + t.length ≤ rem.length := by omega
      apply ih (i + 1)
      · omega
      · rw [applyStep_length]
        exact hrl
      · rw [List.length_set]
        exact hql
      · intro j hj
        rw [getD_set_ne _ _ _ _ (by omega)]
        exact hC j (by omega)
      · intro k
        rw [convCoeff_set quot t i k _ (by omega) (hC i (le_refl i))]
        rw [applyStep_getD t i _ rem htl k]
        have hcase : (if i ≤ k
              then rem.getD i 0 * finv (t.getD 0 0) * t.getD (k - i) 0 else 0)
            = (if i ≤ k ∧ k < i + t.length
              then rem.getD i 0 * finv (t.getD 0 0) * t.getD (k - i) 0 else 0) := by
          by_cases hik : i ≤ k
          · by_cases hkt : k < i + t.length
            · rw [if_pos hik, if_pos ⟨hik, hkt⟩]
            · rw [if_pos hik, if_neg (fun hh => hkt hh.2)]
              rw [getD_of_length_le t (k - i) (by omega), mul_zero]
          · rw [if_neg hik, if_neg (fun hh => hik hh.1)]
        rw [hcase]
        generalize (if i ≤ k ∧ k < i + t.length
          then rem.getD i 0 * finv (t.getD 0 0) * t.getD (k - i) 0 else 0) = X
        have hrearrange : convCoeff quot t k + X + (rem.getD k 0 - X)
            = convCoeff quot t k + rem.getD k 0 := by ring
        rw [hrearrange]
        exact hD k

/-- Claim C2 counterexample: `t = [0, 1]` is a non-zero polynomial, yet
`divide([1, 1], [0, 1])` performs a division by zero instead of returning
a quotient/remainder pair at all. -/
theorem division_exactness_cex :
    (∃ c ∈ ([0, 1] : List (ZMod 13)), c ≠ 0) ∧
    polynomial_division ([1, 1] : List (ZMod 13)) [0, 1] =
      .error .divisionByZero := by
  constructor
  · decide
  · decide

/-- Claim C2 (amended): for every pair `(p, t)` whose constant divisor
coefficient `t[0]` is non-zero (the condition under which the
long-division loop's scalar divisions are defined), `divide` returns a
`(quotient, remainder)` pair and the coefficient-wise identity
`multiply(quotient, t) + remainder == p` holds (entries beyond each
list's length read as `0`). -/
theorem division_exactness_amended {q : Nat} (p t : List (ZMod q))
    (ht0 : t.getD 0 0 ≠ 0) :
    ∃ quot rem, polynomial_division p t = .ok (quot, rem) ∧
      ∀ k, (polynomial_multiply quot t).getD k 0 + rem.getD k 0
        = p.getD k 0 := by
  have ht1 : 1 ≤ t.length := by
    cases t with
    | nil => exact absurd rfl ht0
    | cons c cs => simp
  unfold polynomial_division
  have hg : ((t.length == 0) || t.all (fun c => c == 0)) = false := by
    cases hb : ((t.length == 0) || t.all (fun c => c == 0)) with
    | false => rfl
    | true =>
      exfalso
      simp only [Bool.or_eq_true, beq_iff_eq, List.length_eq_zero,
        List.all_eq_true] at hb
      rcases hb with hb | hb
      · rw [hb] at ht0
        exact ht0 rfl
      · cases t with
        | nil => exact ht0 rfl
        | cons c cs => exact ht0 (hb c (by simp))
  rw [hg]
  simp only [Bool.false_eq_true, if_false]
  have hconv0 : ∀ k,
      convCoeff (List.replicate (p.length + 1 - t.length) (0 : ZMod q)) t k = 0 := by
    intro k
    unfold convCoeff
    apply Finset.sum_eq_zero
    intro x _
    rw [getD_replicate_zero, zero_mul]
  rcases divLoop_exact p t ht0 (p.length + 1 - t.length) 0
      (List.replicate (p.length + 1 - t.length) 0) p (by omega) rfl
      (List.length_replicate _ _) (fun j _ => getD_replicate_zero _ _)
      (fun k => by rw [hconv0, zero_add]) with ⟨qF, rF, hloop, hexact⟩
  refine ⟨qF, trimTrailingZeros rF, ?_, ?_⟩
  · simp only [hloop]
  · intro k
    rw [polynomial_multiply_getD, trim_getD]
    exact hexact k

/-- Witness for C2 (amended) at `p = [1, 2]`, `t = [3, 1]` over `GF(13)`. -/
theorem division_exactness_amended_witness :
    (([3, 1] : List (ZMod 13)).getD 0 0 ≠ 0) ∧
    (∃ quot rem, polynomial_division ([1, 2] : List (ZMod 13)) [3, 1]
        = .ok (quot, rem) ∧
      ∀ k, (polynomial_multiply quot [3, 1]).getD k 0 + rem.getD k 0
        = ([1, 2] : List (ZMod 13)).getD k 0) := by
  have h0 : (([3, 1] : List (ZMod 13)).getD 0 0 ≠ 0) := by decide
  exact ⟨h0, division_exactness_amended [1, 2] [3, 1] h0⟩

/-- Claim C7 counterexample: `multiply([], [1, 1])` is `[0]`, a list of one
zero, not the empty list the claim prescribes for an empty input. -/
theorem multiply_empty_cex :
    polynomial_multiply ([] : List (ZMod 13)) [1, 1] = [0] ∧
    polynomial_multiply ([] : List (ZMod 13)) [1, 1] ≠ [] := by
  constructor
  · decide
  · decide

/-- Claim C7 (amended): `multiply(a, b)` always has length
`len(a) + len(b) - 1` (clamped at `0`, so it is empty only when
`len(a) + len(b) ≤ 1`; when exactly one input is empty the result is a
zero-filled list of length `other - 1`), and coefficient `k` is the
convolution `Σ_{i ≤ k} a[i] * b[k-i]` accumulated from `a[i] * b[j]`
over all index pairs with `i + j = k`. -/
theorem multiply_shape_amended {q : Nat} (a b : List (ZMod q)) :
    (polynomial_multiply a b).length = a.length + b.length - 1 ∧
    ∀ k, (polynomial_multiply a b).getD k 0 = convCoeff a b k :=
  ⟨polynomial_multiply_length a b, fun k => polynomial_multiply_getD a b k⟩
